import Mathlib

/-!
Verification of the taxonomic ancestor resolution scripts of the Date
repository: `scripts/find_mrca.py` (per-query MRCA resolution against a
phylogenetic tree, confidence metrics, internal-node naming) and
`get_nr_subtree.py` (taxonomy collapse filter).

Trees are modelled as rooted, node-labelled trees.  A tree node is
addressed by its path from the root (the list of child indices along the
way); this models the ete3 parent back-pointers: the parent of a node
addressed by a nonempty path is obtained by dropping the last index, and
the root is addressed by the empty path.  Python sets of leaf names become
`Finset String`; Python float ratios become `ℚ` (the source additionally
formats the coverage ratio to two decimals for file output, which is pure
presentation and is not modelled).  File and console I/O is out of scope;
printed per-query warnings are modelled as explicit warning lists in the
results so that "surfaced to the caller" is a provable statement.
-/

inductive PTree where
  | node (name : String) (children : List PTree)

def PTree.name : PTree → String
  | .node n _ => n

def PTree.children : PTree → List PTree
  | .node _ cs => cs

mutual

/-- Leaf names reachable from a node, in left-to-right order.  Models
ete3 `node.get_leaf_names()`: a childless node is itself a leaf. -/
def get_leaf_names : PTree → List String
  | .node n cs => if cs.isEmpty then [n] else leaf_names_list cs

def leaf_names_list : List PTree → List String
  | [] => []
  | c :: cs => get_leaf_names c ++ leaf_names_list cs

end

mutual

/-- All node addresses of a tree (the root is `[]`).  Models one full
`tree.traverse()` enumeration; the claims proved below do not depend on
the enumeration order, only on its contents. -/
def all_paths : PTree → List (List Nat)
  | .node _ cs => [] :: all_paths_list 0 cs

def all_paths_list : Nat → List PTree → List (List Nat)
  | _, [] => []
  | i, c :: cs => (all_paths c).map (fun p => i :: p) ++ all_paths_list (i + 1) cs

end

/-- The subtree rooted at the node addressed by a path, if the path is
valid in the tree. -/
def subtree_at : PTree → List Nat → Option PTree
  | t, [] => some t
  | t, i :: p =>
    match t.children.get? i with
    | some c => subtree_at c p
    | none => none

def name_at (t : PTree) (p : List Nat) : Option String :=
  (subtree_at t p).map PTree.name

def name_at_d (t : PTree) (p : List Nat) : String :=
  (name_at t p).getD ""

def leaf_names_at (t : PTree) (p : List Nat) : List String :=
  match subtree_at t p with
  | some s => get_leaf_names s
  | none => []

def leaf_set_at (t : PTree) (p : List Nat) : Finset String :=
  (leaf_names_at t p).toFinset

mutual

/-- `all(node.name for node in tree.traverse() if not node.is_leaf())`
from `assign_internal_node_names`: every internal node carries a nonempty
name. -/
def internal_annotated : PTree → Bool
  | .node n cs => (cs.isEmpty || n != "") && internal_annotated_list cs

def internal_annotated_list : List PTree → Bool
  | [] => true
  | c :: cs => internal_annotated c && internal_annotated_list cs

end

mutual

/-- One pass of the renaming loop of `assign_internal_node_names`
restricted to the nodes at a given depth: an unnamed node at that depth
receives the name `Internal_<counter>` and the counter is incremented;
the counter is threaded left to right.  ete3's default `traverse()` is a
level-order walk, so the full loop is the composition of these per-depth
passes (`rename_levels` below). -/
def rename_at_depth : PTree → Nat → Nat → PTree × Nat
  | .node n cs, 0, k =>
    if n = "" then (PTree.node ("Internal_" ++ toString k) cs, k + 1)
    else (PTree.node n cs, k)
  | .node n cs, d + 1, k => (PTree.node n (rename_children cs d k).1, (rename_children cs d k).2)

def rename_children : List PTree → Nat → Nat → List PTree × Nat
  | [], _, k => ([], k)
  | c :: cs, d, k =>
    ((rename_at_depth c d k).1 :: (rename_children cs d (rename_at_depth c d k).2).1,
     (rename_children cs d (rename_at_depth c d k).2).2)

end

mutual

def heightT : PTree → Nat
  | .node _ cs => 1 + height_list cs

def height_list : List PTree → Nat
  | [] => 0
  | c :: cs => max (heightT c) (height_list cs)

end

def rename_levels : PTree → Nat → Nat → Nat → PTree
  | t, _, _, 0 => t
  | t, d, k, fuel + 1 =>
    rename_levels (rename_at_depth t d k).1 (d + 1) (rename_at_depth t d k).2 fuel

/-- `assign_internal_node_names(tree)` from `find_mrca.py`: if every
internal node is already named, report that no modification was made and
leave the tree untouched; otherwise give every unnamed node a fresh
`Internal_<counter>` name (counter starting at 1, in traversal order).
The returned Bool is the source's return value (`True` iff the tree was
modified). -/
def assign_internal_node_names (t : PTree) : PTree × Bool :=
  if internal_annotated t then (t, false)
  else (rename_levels t 0 1 (heightT t), true)

/-- The `taxon_nodes` index of `find_mrca.py`: all nodes carrying a given
(nonempty) name.  The Python dict has an entry only for nonempty names
(`if node.name:`). -/
def taxon_nodes (t : PTree) (taxon_id : String) : List (List Nat) :=
  if taxon_id = "" then []
  else (all_paths t).filter (fun p => name_at t p == some taxon_id)

/-- Longest common prefix of two paths: the deepest common ancestor of
the two addressed nodes. -/
def common_path : List Nat → List Nat → List Nat
  | i :: p, j :: q => if i = j then i :: common_path p q else []
  | _, _ => []

/-- Models ete3 `tree.get_common_ancestor(nodes)` as called on the tree
root: the deepest node that is an ancestor of (or equal to) every node
of the list — in path terms, the longest common prefix of the paths.
ete3 treats a one-element target list specially, pairing the single
target with the node the method is called on (here the root, whose path
is `[]`), so a singleton query resolves to the common ancestor of that
node and the root, i.e. the root.  (Some ete3 releases instead raise a
`NameError` in that branch — the `tree_nodes` typo; the documented
pairing-with-self behaviour is what is modelled.) -/
def get_common_ancestor : List (List Nat) → List Nat
  | [] => []
  | [p] => common_path p []
  | p :: ps => ps.foldl common_path p

/-- Line 58 of `find_mrca.py`: drop the two sentinel values. -/
def valid_taxids (taxids : List String) : List String :=
  taxids.filter (fun x => x != "no_hit" && x != "no_valid_taxid")

/-- Lines 75-79 of `find_mrca.py`: the flattened candidate node list.
Taxon ids absent from the index contribute nothing, and the anchor node
is always appended. -/
def flat_taxa (t : PTree) (anchorP : List Nat) (vt : List String) : List (List Nat) :=
  ((vt.filter (fun tid => !(taxon_nodes t tid).isEmpty)).map (taxon_nodes t)).flatten ++ [anchorP]

/-- Lines 83-87 of `find_mrca.py`: the union of the leaf names under
every resolved candidate node (the anchor is not included). -/
def observed_leaves (t : PTree) (vt : List String) : Finset String :=
  (vt.flatMap (fun tid => (taxon_nodes t tid).flatMap (fun p => leaf_names_at t p))).toFinset

/-- Line 89 of `find_mrca.py`: one warning per candidate taxon id that
has no entry in the taxon index. -/
def unknown_taxid_warnings (t : PTree) (vt : List String) : List String :=
  (vt.filter (fun tid => (taxon_nodes t tid).isEmpty)).map
    (fun tid => "Warning: taxid " ++ tid ++ " not found in taxon_nodes")

/-- Lines 92-97 of `find_mrca.py` (`species_percentage`): observed
fraction of the leaves under the MRCA, `0` when that leaf set is empty. -/
def species_percentage_metric (t : PTree) (mrcaP : List Nat) (observed : Finset String) : ℚ :=
  if (leaf_set_at t mrcaP).card > 0
  then ((leaf_set_at t mrcaP ∩ observed).card : ℚ) / ((leaf_set_at t mrcaP).card : ℚ)
  else 0

/-- The `while current_node != mrca` climb of lines 102-106, fuelled by
the length of the start path (each `.up` step drops the last index, so
the fuel suffices; when the supposed MRCA is not an ancestor the source
would fall off the root, a case that never arises from
`get_common_ancestor`). -/
def path_to_mrca_go (mrcaP : List Nat) : Nat → List Nat → List (List Nat)
  | 0, _ => [mrcaP]
  | fuel + 1, p => if p = mrcaP then [mrcaP] else p :: path_to_mrca_go mrcaP fuel p.dropLast

/-- The node path walked from the anchor up to and including the MRCA
(anchor first, MRCA last). -/
def path_to_mrca (mrcaP anchorP : List Nat) : List (List Nat) :=
  path_to_mrca_go mrcaP anchorP.length anchorP

/-- Lines 109-116 of `find_mrca.py`: per step, the fraction of the newly
introduced leaves that are observed (`0` when no new leaf is introduced),
accumulating the leaves seen so far. -/
def activation_go (t : PTree) (observed : Finset String) :
    List (List Nat) → Finset String → List ℚ
  | [], _ => []
  | p :: ps, leaves_seen =>
    (if (leaf_set_at t p \ leaves_seen).card > 0
     then (((leaf_set_at t p \ leaves_seen) ∩ observed).card : ℚ) /
       ((leaf_set_at t p \ leaves_seen).card : ℚ)
     else 0) :: activation_go t observed ps (leaves_seen ∪ leaf_set_at t p)

/-- The `node_activation` metric: activation fractions along the
anchor→MRCA path, starting from an empty seen set. -/
def node_activation_metric (t : PTree) (mrcaP anchorP : List Nat) (observed : Finset String) :
    List ℚ :=
  activation_go t observed (path_to_mrca mrcaP anchorP) ∅

/-- The leaves accumulated by `activation_go` after walking a list of
path nodes, starting from `init`. -/
def seen_after (t : PTree) (ps : List (List Nat)) (init : Finset String) : Finset String :=
  ps.foldl (fun acc p => acc ∪ leaf_set_at t p) init

inductive Method where
  | species_percentage
  | node_activation
deriving DecidableEq

/-- The metric column of a result row: a default-assignment flag string,
a coverage ratio, or an activation vector. -/
inductive Metric where
  | flag (s : String)
  | cov (q : ℚ)
  | activation (v : List ℚ)
deriving DecidableEq

structure QueryResult where
  mrca_name : String
  metric : Metric
  warnings : List String
deriving DecidableEq

def no_hit_flag : String := "Assigned to focal species (no_hit)"

def no_valid_taxid_flag : String := "Assigned to focal species (no_valid_taxid)"

/-- The MRCA computed for one query (the body of the `if taxa:` branch of
`find_mrca.py`): common ancestor of all resolved candidate nodes together
with the anchor node. -/
def query_mrca (t : PTree) (anchorP : List Nat) (taxids : List String) : List Nat :=
  get_common_ancestor (flat_taxa t anchorP (valid_taxids taxids))

/-- The per-query body of the loop of `find_mrca` (lines 56-124): sentinel
handling, candidate flattening, MRCA computation and metric computation.
Printed warnings are returned in `warnings`. -/
def process_query (t : PTree) (anchorP : List Nat) (method : Method) (qseqid : String)
    (taxids : List String) : QueryResult :=
  if (valid_taxids taxids).isEmpty && taxids.all (fun x => x == "no_hit") then
    ⟨name_at_d t anchorP, Metric.flag no_hit_flag, []⟩
  else if (valid_taxids taxids).isEmpty && taxids.all (fun x => x == "no_valid_taxid") then
    ⟨name_at_d t anchorP, Metric.flag no_valid_taxid_flag,
     ["Warning: Query " ++ qseqid ++ " hit a synthetic construct or was malformed."]⟩
  else if (flat_taxa t anchorP (valid_taxids taxids)).isEmpty then
    ⟨"Not found",
     (match method with
      | Method.species_percentage => Metric.flag "Not found"
      | Method.node_activation => Metric.activation []),
     []⟩
  else
    ⟨name_at_d t (query_mrca t anchorP taxids),
     (match method with
      | Method.species_percentage =>
        Metric.cov (species_percentage_metric t (query_mrca t anchorP taxids)
          (observed_leaves t (valid_taxids taxids)))
      | Method.node_activation =>
        Metric.activation (node_activation_metric t (query_mrca t anchorP taxids) anchorP
          (observed_leaves t (valid_taxids taxids)))),
     unknown_taxid_warnings t (valid_taxids taxids)⟩

/-- Models `tree & anchor_specie`: the anchor node looked up by name,
`none` when absent (ete3 raises in that case). -/
def find_anchor (t : PTree) (anchor_specie : String) : Option (List Nat) :=
  ((all_paths t).filter (fun p => name_at t p == some anchor_specie)).head?

structure RunOutput where
  results : List (String × String × Metric)
  warnings : List String
  tree_rewritten : Bool
  final_tree : PTree

/-- The whole `find_mrca` run: name the internal nodes, look up the
anchor, process every query.  `tree_rewritten` is the `modified` flag
that guards the `tree.write` call (lines 146-149); the run-summary
printing is pure reporting and is not modelled. -/
def find_mrca (t0 : PTree) (taxid_mapping : List (String × List String))
    (anchor_specie : String) (method : Method) : Option RunOutput :=
  match find_anchor (assign_internal_node_names t0).1 anchor_specie with
  | none => none
  | some anchorP =>
    some ⟨taxid_mapping.map (fun q =>
            (q.1, (process_query (assign_internal_node_names t0).1 anchorP method q.1 q.2).mrca_name,
             (process_query (assign_internal_node_names t0).1 anchorP method q.1 q.2).metric)),
          taxid_mapping.flatMap (fun q =>
            (process_query (assign_internal_node_names t0).1 anchorP method q.1 q.2).warnings),
          (assign_internal_node_names t0).2,
          (assign_internal_node_names t0).1⟩

/-- Outcome of `process_line` of `get_nr_subtree.py`.  `oldOut`/`newOut`
are lines written to the old/new output files; the other constructors are
the returned error strings (printed by the caller, written nowhere). -/
inductive LineOutcome where
  | malformed (parts : List String)
  | mrcaNotFound (mrca_name : String)
  | oldOut (qseqid taxon_name : String)
  | oldNotInMapping (qseqid mrca_name : String)
  | newOut (qseqid taxon_name taxid : String) (include_topology : Bool)
  | newNotInMapping (qseqid mrca_key : String)
deriving DecidableEq

/-- The legacy ("old") output path of the collapse filter. -/
def is_old_outcome : LineOutcome → Bool
  | LineOutcome.oldOut _ _ => true
  | LineOutcome.oldNotInMapping _ _ => true
  | _ => false

/-- Lookup in the MRCA→NR mapping of `load_mapping`: the file rows fill a
dict, so a later row with the same key shadows an earlier one. -/
def mapping_lookup (mapping : List (String × String × String)) (key : String) :
    Option (String × String) :=
  match mapping with
  | [] => none
  | (k, tn, ti) :: rest =>
    match mapping_lookup rest key with
    | some v => some v
    | none => if k == key then some (tn, ti) else none

/-- `process_old_mrca` of `get_nr_subtree.py`. -/
def process_old_mrca (qseqid mrca_name : String)
    (mapping : List (String × String × String)) : LineOutcome :=
  match mapping_lookup mapping mrca_name with
  | none => LineOutcome.oldNotInMapping qseqid mrca_name
  | some (taxon_name, _) => LineOutcome.oldOut qseqid taxon_name

/-- `process_new_mrca` of `get_nr_subtree.py` (called with the lifted
node; only its name is used). -/
def process_new_mrca (qseqid mrca_key : String) (include_topology : Bool)
    (mapping : List (String × String × String)) : LineOutcome :=
  match mapping_lookup mapping mrca_key with
  | none => LineOutcome.newNotInMapping qseqid mrca_key
  | some (taxon_name, taxid) => LineOutcome.newOut qseqid taxon_name taxid include_topology

/-- The `original_nodes` dict of `get_nr_subtree.py`: name → node, a
later node with the same name shadowing an earlier one in the traversal. -/
def original_node (t : PTree) (name : String) : Option (List Nat) :=
  ((all_paths t).filter (fun p => name_at t p == some name)).getLast?

/-- The `for _ in range(levels_up)` climb of `process_line`: stop with
`none` (→ old-MRCA handling) as soon as the current node has no parent or
the parent is unnamed, otherwise move one level up. -/
def lift_up (t : PTree) : Nat → List Nat → Option (List Nat)
  | 0, p => some p
  | n + 1, p =>
    if p = [] then none
    else if name_at_d t p.dropLast = "" then none
    else lift_up t n p.dropLast

/-- The body of `process_line` of `get_nr_subtree.py` after the
tab-splitting of the input row: find the MRCA node, lift `levels_up`
levels, then decide between the old (legacy) and new output paths. -/
def process_line_parts (t : PTree) (mapping : List (String × String × String))
    (include_topology : Bool) (levels_up : Nat) (parts : List String) : LineOutcome :=
  match parts with
  | [qseqid, mrca_name, _] =>
    match original_node t mrca_name with
    | none => LineOutcome.mrcaNotFound mrca_name
    | some mrcaP =>
      match lift_up t levels_up mrcaP with
      | none => process_old_mrca qseqid mrca_name mapping
      | some liftedP =>
        match mapping_lookup mapping (name_at_d t liftedP) with
        | some (taxon_name, _) =>
          if taxon_name == "Eukaryota" then process_old_mrca qseqid mrca_name mapping
          else process_new_mrca qseqid (name_at_d t liftedP) include_topology mapping
        | none => process_new_mrca qseqid (name_at_d t liftedP) include_topology mapping
  | _ => LineOutcome.malformed parts

/-- `process_line` of `get_nr_subtree.py`: strip and tab-split the raw
row, then run `process_line_parts`. -/
def process_line (t : PTree) (mapping : List (String × String × String))
    (include_topology : Bool) (levels_up : Nat) (line : String) : LineOutcome :=
  process_line_parts t mapping include_topology levels_up (line.trim.splitOn "\t")

/-- The example tree `((A,B)N1,(C,D)N2)Root;` used by the spec's own
scenarios. -/
def demo_tree : PTree :=
  PTree.node "Root"
    [PTree.node "N1" [PTree.node "A" [], PTree.node "B" []],
     PTree.node "N2" [PTree.node "C" [], PTree.node "D" []]]

/-- A tree with a unary internal node `N1` above the leaf `A`: the step
from `A` to `N1` introduces no new leaf. -/
def demo_tree2 : PTree :=
  PTree.node "Root" [PTree.node "N1" [PTree.node "A" []], PTree.node "B" []]

/-- A tree whose root is unnamed. -/
def demo_tree3 : PTree :=
  PTree.node "" [PTree.node "A" [], PTree.node "B" []]

def demo_mapping : List (String × String × String) := [("N1", "Clade1", "100")]

def demo_mapping_euk : List (String × String × String) := [("Root", "Eukaryota", "1")]

/-- Every tree node has at least one leaf below it. -/
def leaf_names_ne_nil : (t : PTree) → get_leaf_names t ≠ []
  | .node n [] => by simp [get_leaf_names]
  | .node n (c :: cs) => by
    have h := leaf_names_ne_nil c
    simp only [get_leaf_names, List.isEmpty_cons, leaf_names_list]
    intro hc
    exact h (List.append_eq_nil.mp hc).1

/-! ## Ancestor paths and the common-ancestor computation -/

/-- `p` addresses an ancestor of (or the same node as) the node addressed
by `q`: `p` is an initial segment of `q`. -/
def anc_path (p q : List Nat) : Prop := ∃ s, p ++ s = q

theorem anc_path_refl (p : List Nat) : anc_path p p := ⟨[], List.append_nil p⟩

theorem anc_path_trans {p q r : List Nat} (h1 : anc_path p q) (h2 : anc_path q r) :
    anc_path p r := by
  obtain ⟨s1, hs1⟩ := h1
  obtain ⟨s2, hs2⟩ := h2
  exact ⟨s1 ++ s2, by rw [← List.append_assoc, hs1, hs2]⟩

theorem common_path_anc_left : ∀ p q : List Nat, anc_path (common_path p q) p
  | [], _ => ⟨[], rfl⟩
  | _ :: _, [] => ⟨_, rfl⟩
  | i :: p, j :: q => by
    by_cases h : i = j
    · obtain ⟨s, hs⟩ := common_path_anc_left p q
      exact ⟨s, by simp [common_path, h, hs]⟩
    · exact ⟨i :: p, by simp [common_path, h]⟩

theorem common_path_anc_right : ∀ p q : List Nat, anc_path (common_path p q) q
  | [], _ => ⟨_, rfl⟩
  | _ :: _, [] => ⟨[], by simp [common_path]⟩
  | i :: p, j :: q => by
    by_cases h : i = j
    · obtain ⟨s, hs⟩ := common_path_anc_right p q
      exact ⟨s, by simp [common_path, h, hs]⟩
    · exact ⟨j :: q, by simp [common_path, h]⟩

theorem foldl_common_path_anc : ∀ (ps : List (List Nat)) (p x : List Nat),
    (x = p ∨ x ∈ ps) → anc_path (ps.foldl common_path p) x
  | [], p, x, h => by
    rcases h with h | h
    · exact h ▸ anc_path_refl p
    · cases h
  | q :: ps, p, x, h => by
    have hstep : ∀ y, (y = common_path p q ∨ y ∈ ps) →
        anc_path (((q :: ps)).foldl common_path p) y := by
      intro y hy
      simpa [List.foldl] using foldl_common_path_anc ps (common_path p q) y hy
    rcases h with h | h
    · exact anc_path_trans (hstep _ (Or.inl rfl)) (h ▸ common_path_anc_left p q)
    · rcases List.mem_cons.mp h with h | h
      · exact anc_path_trans (hstep _ (Or.inl rfl)) (h ▸ common_path_anc_right p q)
      · exact hstep x (Or.inr h)

/-- The computed common ancestor is an ancestor of every input node. -/
theorem common_path_nil_right (p : List Nat) : common_path p [] = [] := by
  cases p <;> rfl

/-- The computed common ancestor is an ancestor of every input node
(also in the singleton case, where it is the root). -/
theorem get_common_ancestor_anc {l : List (List Nat)} {x : List Nat} (hx : x ∈ l) :
    anc_path (get_common_ancestor l) x := by
  cases l with
  | nil => cases hx
  | cons p ps =>
    cases ps with
    | nil =>
      rcases List.mem_cons.mp hx with h | h
      · exact h ▸ common_path_anc_left p []
      · cases h
    | cons q ps2 =>
      rcases List.mem_cons.mp hx with h | h
      · exact foldl_common_path_anc (q :: ps2) p x (Or.inl h)
      · exact foldl_common_path_anc (q :: ps2) p x (Or.inr h)

theorem anchor_mem_flat_taxa (t : PTree) (anchorP : List Nat) (vt : List String) :
    anchorP ∈ flat_taxa t anchorP vt :=
  List.mem_append_right _ (List.mem_singleton.mpr rfl)

theorem flat_taxa_ne_nil (t : PTree) (anchorP : List Nat) (vt : List String) :
    flat_taxa t anchorP vt ≠ [] := by
  intro h
  exact absurd (h ▸ anchor_mem_flat_taxa t anchorP vt) (List.not_mem_nil anchorP)

/-- The query MRCA is always an ancestor of (or equal to) the anchor,
because the anchor node is appended to the candidate list. -/
theorem query_mrca_anc_anchor (t : PTree) (anchorP : List Nat) (taxids : List String) :
    anc_path (query_mrca t anchorP taxids) anchorP :=
  get_common_ancestor_anc (anchor_mem_flat_taxa t anchorP (valid_taxids taxids))

/-! ## Leaf sets along ancestor paths -/

theorem subtree_at_append : ∀ (p : List Nat) (t : PTree) (s : List Nat),
    subtree_at t (p ++ s) = (subtree_at t p).bind (fun u => subtree_at u s)
  | [], t, s => rfl
  | i :: p, t, s => by
    show subtree_at t ((i :: p) ++ s) = _
    cases t with
    | node n cs =>
      simp only [subtree_at, List.cons_append, PTree.children]
      cases cs.get? i with
      | none => rfl
      | some c => exact subtree_at_append p c s

theorem leaf_names_list_cons (d : PTree) (cs : List PTree) :
    leaf_names_list (d :: cs) = get_leaf_names d ++ leaf_names_list cs := rfl

theorem get_leaf_names_subset_of_mem : ∀ (cs : List PTree) (c : PTree), c ∈ cs →
    ∀ x ∈ get_leaf_names c, x ∈ leaf_names_list cs
  | [], c, hc => absurd hc (List.not_mem_nil c)
  | d :: cs, c, hc => by
    intro x hx
    rw [leaf_names_list_cons]
    rcases List.mem_cons.mp hc with h | h
    · exact List.mem_append_left _ (h ▸ hx)
    · exact List.mem_append_right _ (get_leaf_names_subset_of_mem cs c h x hx)

theorem subtree_leaf_subset : ∀ (s : List Nat) (u v : PTree), subtree_at u s = some v →
    ∀ x ∈ get_leaf_names v, x ∈ get_leaf_names u
  | [], u, v, huv => by
    intro x hx
    cases huv with
    | refl => exact hx
  | i :: s, u, v, huv => by
    intro x hx
    cases u with
    | node n cs =>
      simp only [subtree_at, PTree.children] at huv
      cases hc : cs.get? i with
      | none => rw [hc] at huv; cases huv
      | some c =>
        rw [hc] at huv
        have hmem : c ∈ cs := List.get?_mem hc
        have hne : cs ≠ [] := by
          intro h
          rw [h] at hmem
          exact List.not_mem_nil c hmem
        have : get_leaf_names (PTree.node n cs) = leaf_names_list cs := by
          simp [get_leaf_names, List.isEmpty_iff, hne]
        rw [this]
        exact get_leaf_names_subset_of_mem cs c hmem x
          (subtree_leaf_subset s c v huv x hx)

theorem leaf_names_at_of_none {t : PTree} {p : List Nat} (h : subtree_at t p = none) :
    leaf_names_at t p = [] := by
  simp [leaf_names_at, h]

theorem leaf_names_at_of_some {t : PTree} {p : List Nat} {u : PTree}
    (h : subtree_at t p = some u) : leaf_names_at t p = get_leaf_names u := by
  simp [leaf_names_at, h]

theorem leaf_set_at_subset_of_anc {p q : List Nat} (t : PTree) (h : anc_path p q) :
    leaf_set_at t q ⊆ leaf_set_at t p := by
  obtain ⟨s, rfl⟩ := h
  intro x hx
  simp only [leaf_set_at, List.mem_toFinset] at hx ⊢
  cases hu : subtree_at t p with
  | none =>
    have hq : subtree_at t (p ++ s) = none := by
      rw [subtree_at_append, hu]
      rfl
    rw [leaf_names_at_of_none hq] at hx
    cases hx
  | some u =>
    have hq : subtree_at t (p ++ s) = subtree_at u s := by
      rw [subtree_at_append, hu]
      rfl
    rw [leaf_names_at_of_some hu]
    cases hv : subtree_at u s with
    | none =>
      rw [leaf_names_at_of_none (hq.trans hv)] at hx
      cases hx
    | some v =>
      rw [leaf_names_at_of_some (hq.trans hv)] at hx
      exact subtree_leaf_subset s u v hv x hx

/-! ## Ratio bounds and metric structure -/

theorem nat_div_bounds {a b : Nat} (hab : a ≤ b) :
    0 ≤ ((a : ℚ) / (b : ℚ)) ∧ ((a : ℚ) / (b : ℚ)) ≤ 1 := by
  constructor
  · exact div_nonneg (by positivity) (by positivity)
  · rcases Nat.eq_zero_or_pos b with hb | hb
    · subst hb
      have ha : a = 0 := Nat.le_zero.mp hab
      simp [ha]
    · rw [div_le_one (by exact_mod_cast hb)]
      exact_mod_cast hab

theorem species_percentage_metric_bounds (t : PTree) (mrcaP : List Nat)
    (observed : Finset String) :
    0 ≤ species_percentage_metric t mrcaP observed
    ∧ species_percentage_metric t mrcaP observed ≤ 1 := by
  unfold species_percentage_metric
  split
  · exact nat_div_bounds (Finset.card_le_card (Finset.inter_subset_left))
  · norm_num

theorem path_to_mrca_go_length : ∀ (fuel : Nat) (s mrcaP : List Nat), s.length ≤ fuel →
    (path_to_mrca_go mrcaP fuel (mrcaP ++ s)).length = s.length + 1
  | 0, s, mrcaP, hs => by
    have : s = [] := List.eq_nil_of_length_eq_zero (Nat.le_zero.mp hs)
    subst this
    rfl
  | fuel + 1, s, mrcaP, hs => by
    rcases List.eq_nil_or_concat s with hnil | ⟨q, a, hs'⟩
    · subst hnil
      simp [path_to_mrca_go]
    rw [List.concat_eq_append] at hs'
    subst hs'
    · have hne : mrcaP ++ (q ++ [a]) ≠ mrcaP := by
        intro h
        have := congrArg List.length h
        simp at this
      have hdrop : (mrcaP ++ (q ++ [a])).dropLast = mrcaP ++ q := by
        rw [← List.append_assoc, List.dropLast_concat]
      have hq : q.length ≤ fuel := by
        have := hs
        simp at this
        omega
      simp only [path_to_mrca_go, if_neg hne, hdrop, List.length_cons,
        path_to_mrca_go_length fuel q mrcaP hq, List.length_append, List.length_cons,
        List.length_nil]

theorem path_to_mrca_length {mrcaP anchorP : List Nat} (h : anc_path mrcaP anchorP) :
    (path_to_mrca mrcaP anchorP).length = (anchorP.length - mrcaP.length) + 1 := by
  obtain ⟨s, rfl⟩ := h
  unfold path_to_mrca
  rw [path_to_mrca_go_length (mrcaP ++ s).length s mrcaP (by simp)]
  simp

theorem activation_go_length (t : PTree) (obs : Finset String) :
    ∀ (ps : List (List Nat)) (seen : Finset String),
      (activation_go t obs ps seen).length = ps.length
  | [], _ => rfl
  | p :: ps, seen => by
    simp only [activation_go, List.length_cons, activation_go_length t obs ps]

theorem activation_go_mem_bounds (t : PTree) (obs : Finset String) :
    ∀ (ps : List (List Nat)) (seen : Finset String) (q : ℚ),
      q ∈ activation_go t obs ps seen → 0 ≤ q ∧ q ≤ 1
  | [], _, q, hq => by cases hq
  | p :: ps, seen, q, hq => by
    rcases List.mem_cons.mp hq with h | h
    · subst h
      split
      · exact nat_div_bounds (Finset.card_le_card (Finset.inter_subset_left))
      · norm_num
    · exact activation_go_mem_bounds t obs ps (seen ∪ leaf_set_at t p) q h

theorem seen_after_cons (t : PTree) (p : List Nat) (ps : List (List Nat))
    (init : Finset String) :
    seen_after t (p :: ps) init = seen_after t ps (init ∪ leaf_set_at t p) := rfl

theorem activation_go_getD (t : PTree) (obs : Finset String) :
    ∀ (ps : List (List Nat)) (seen : Finset String) (i : Nat), i < ps.length →
      (activation_go t obs ps seen).getD i 0 =
        (if (leaf_set_at t (ps.getD i []) \ seen_after t (ps.take i) seen).card > 0
         then (((leaf_set_at t (ps.getD i []) \ seen_after t (ps.take i) seen) ∩ obs).card : ℚ) /
           ((leaf_set_at t (ps.getD i []) \ seen_after t (ps.take i) seen).card : ℚ)
         else 0)
  | [], _, i, hi => by cases hi
  | p :: ps, seen, 0, _ => by
    simp [activation_go, seen_after]
  | p :: ps, seen, i + 1, hi => by
    have hi' : i < ps.length := by
      simpa using Nat.lt_of_succ_lt_succ hi
    simp only [activation_go, List.getD_cons_succ, List.take_succ_cons, seen_after_cons]
    exact activation_go_getD t obs ps (seen ∪ leaf_set_at t p) i hi'

/-! ## Structure of the internal-node renaming pass -/

theorem subtree_at_nil (t : PTree) : subtree_at t [] = some t := rfl

theorem subtree_at_cons_some {cs : List PTree} {i : Nat} {c : PTree} (n : String)
    (p : List Nat) (hc : cs.get? i = some c) :
    subtree_at (PTree.node n cs) (i :: p) = subtree_at c p := by
  simp only [subtree_at, PTree.children]
  rw [hc]

theorem subtree_at_cons_none {cs : List PTree} {i : Nat} (n : String) (p : List Nat)
    (hc : cs.get? i = none) : subtree_at (PTree.node n cs) (i :: p) = none := by
  simp only [subtree_at, PTree.children]
  rw [hc]

theorem name_at_nil (n : String) (cs : List PTree) :
    name_at (PTree.node n cs) [] = some n := rfl

theorem name_at_cons_some {cs : List PTree} {i : Nat} {c : PTree} (n : String)
    (p : List Nat) (hc : cs.get? i = some c) :
    name_at (PTree.node n cs) (i :: p) = name_at c p := by
  unfold name_at
  rw [subtree_at_cons_some n p hc]

theorem name_at_cons_none {cs : List PTree} {i : Nat} (n : String) (p : List Nat)
    (hc : cs.get? i = none) : name_at (PTree.node n cs) (i :: p) = none := by
  unfold name_at
  rw [subtree_at_cons_none n p hc]
  rfl

theorem rename_children_get : ∀ (cs : List PTree) (d k i : Nat),
    ((rename_children cs d k).1.get? i = none ∧ cs.get? i = none)
    ∨ ∃ c k2, cs.get? i = some c
        ∧ (rename_children cs d k).1.get? i = some (rename_at_depth c d k2).1
  | [], _, _, _ => Or.inl ⟨rfl, rfl⟩
  | c :: _, _, k, 0 => Or.inr ⟨c, k, rfl, rfl⟩
  | c :: cs, d, k, i + 1 => by
    rcases rename_children_get cs d (rename_at_depth c d k).2 i with ⟨h1, h2⟩ | ⟨c2, k2, hc, hc'⟩
    · exact Or.inl ⟨by simpa [rename_children] using h1, by simpa using h2⟩
    · exact Or.inr ⟨c2, k2, by simpa using hc, by simpa [rename_children] using hc'⟩

theorem rename_at_depth_preserves : ∀ (p : List Nat) (t : PTree) (d k : Nat),
    ((subtree_at (rename_at_depth t d k).1 p).isSome = (subtree_at t p).isSome)
    ∧ (name_at t p ≠ some "" → name_at (rename_at_depth t d k).1 p = name_at t p)
  | [], PTree.node n cs, 0, k => by
    by_cases hn : n = ""
    · refine ⟨by simp [rename_at_depth, hn, subtree_at], ?_⟩
      intro hne
      exact absurd (by rw [name_at_nil, hn]) hne
    · constructor
      · simp [rename_at_depth, hn, subtree_at]
      · intro _
        simp [rename_at_depth, hn]
  | [], PTree.node n cs, d + 1, k => by
    constructor
    · rfl
    · intro _
      simp [rename_at_depth, name_at_nil]
  | i :: p, PTree.node n cs, 0, k => by
    have hsub : subtree_at (rename_at_depth (PTree.node n cs) 0 k).1 (i :: p)
        = subtree_at (PTree.node n cs) (i :: p) := by
      by_cases hn : n = "" <;>
        simp [rename_at_depth, hn, subtree_at, PTree.children]
    refine ⟨by rw [hsub], fun _ => ?_⟩
    unfold name_at
    rw [hsub]
  | i :: p, PTree.node n cs, d + 1, k => by
    have hren : (rename_at_depth (PTree.node n cs) (d + 1) k).1
        = PTree.node n (rename_children cs d k).1 := rfl
    rcases rename_children_get cs d k i with ⟨h1, h2⟩ | ⟨c, k2, hc, hc'⟩
    · constructor
      · rw [hren, subtree_at_cons_none n p h1, subtree_at_cons_none n p h2]
      · intro _
        rw [hren, name_at_cons_none n p h1, name_at_cons_none n p h2]
    · have IH := rename_at_depth_preserves p c d k2
      constructor
      · rw [hren, subtree_at_cons_some n p hc', subtree_at_cons_some n p hc]
        exact IH.1
      · intro hne
        rw [name_at_cons_some n p hc] at hne ⊢
        rw [hren, name_at_cons_some n p hc']
        exact IH.2 hne

theorem rename_levels_preserves : ∀ (fuel : Nat) (t : PTree) (d k : Nat) (p : List Nat),
    ((subtree_at (rename_levels t d k fuel) p).isSome = (subtree_at t p).isSome)
    ∧ (name_at t p ≠ some "" → name_at (rename_levels t d k fuel) p = name_at t p)
  | 0, t, d, k, p => ⟨rfl, fun _ => rfl⟩
  | fuel + 1, t, d, k, p => by
    have hstep := rename_at_depth_preserves p t d k
    have IH := rename_levels_preserves fuel (rename_at_depth t d k).1 (d + 1)
      (rename_at_depth t d k).2 p
    constructor
    · rw [show rename_levels t d k (fuel + 1)
          = rename_levels (rename_at_depth t d k).1 (d + 1) (rename_at_depth t d k).2 fuel
          from rfl]
      rw [IH.1, hstep.1]
    · intro hne
      rw [show rename_levels t d k (fuel + 1)
          = rename_levels (rename_at_depth t d k).1 (d + 1) (rename_at_depth t d k).2 fuel
          from rfl]
      have h1 : name_at (rename_at_depth t d k).1 p = name_at t p := hstep.2 hne
      rw [IH.2 (by rw [h1]; exact hne), h1]

/-! ## Branch analysis of `process_query` -/

theorem valid_taxids_nil_of_all_no_hit {l : List String}
    (h : l.all (fun x => x == "no_hit") = true) : valid_taxids l = [] := by
  unfold valid_taxids
  rw [List.filter_eq_nil_iff]
  intro a ha
  have ha' : a = "no_hit" := by
    have := List.all_eq_true.mp h a ha
    simpa using this
  simp [ha']

theorem valid_taxids_nil_of_all_no_valid {l : List String}
    (h : l.all (fun x => x == "no_valid_taxid") = true) : valid_taxids l = [] := by
  unfold valid_taxids
  rw [List.filter_eq_nil_iff]
  intro a ha
  have ha' : a = "no_valid_taxid" := by
    have := List.all_eq_true.mp h a ha
    simpa using this
  simp [ha']

theorem valid_taxids_idem (l : List String) :
    valid_taxids (valid_taxids l) = valid_taxids l := by
  unfold valid_taxids
  exact List.filter_eq_self.mpr (fun a ha => (List.mem_filter.mp ha).2)

theorem flat_taxa_isEmpty_false (t : PTree) (anchorP : List Nat) (vt : List String) :
    (flat_taxa t anchorP vt).isEmpty = false := by
  rcases h : flat_taxa t anchorP vt with _ | ⟨p, ps⟩
  · exact absurd h (flat_taxa_ne_nil t anchorP vt)
  · rfl

/-- When at least one non-sentinel taxon id is present, `process_query`
takes the general LCA branch. -/
theorem process_query_lca_branch (t : PTree) (anchorP : List Nat) (m : Method)
    (q : String) (taxids : List String) (h : valid_taxids taxids ≠ []) :
    process_query t anchorP m q taxids =
      ⟨name_at_d t (query_mrca t anchorP taxids),
       (match m with
        | Method.species_percentage =>
          Metric.cov (species_percentage_metric t (query_mrca t anchorP taxids)
            (observed_leaves t (valid_taxids taxids)))
        | Method.node_activation =>
          Metric.activation (node_activation_metric t (query_mrca t anchorP taxids) anchorP
            (observed_leaves t (valid_taxids taxids)))),
       unknown_taxid_warnings t (valid_taxids taxids)⟩ := by
  have hvtE : (valid_taxids taxids).isEmpty = false := by
    simpa [List.isEmpty_iff] using h
  unfold process_query
  rw [hvtE]
  simp only [Bool.false_and, Bool.false_eq_true, if_false,
    flat_taxa_isEmpty_false t anchorP (valid_taxids taxids)]

/-- C1.  For every query with at least one non-sentinel candidate taxon
id, the computed MRCA is an ancestor of (or equal to) the anchor node, so
its leaf-name set is a superset of the anchor's leaf-name set: the anchor
is always appended to the flattened candidate list before the
common-ancestor computation. -/
theorem c1_mrca_leafset_superset_of_anchor (t : PTree) (anchorP : List Nat)
    (taxids : List String) (_h : valid_taxids taxids ≠ []) :
    anc_path (query_mrca t anchorP taxids) anchorP
    ∧ leaf_set_at t anchorP ⊆ leaf_set_at t (query_mrca t anchorP taxids) := by
  refine ⟨query_mrca_anc_anchor t anchorP taxids, ?_⟩
  exact leaf_set_at_subset_of_anc t (query_mrca_anc_anchor t anchorP taxids)

theorem c1_witness :
    anc_path (query_mrca demo_tree [0, 0] ["C", "D"]) [0, 0]
    ∧ leaf_set_at demo_tree [0, 0] ⊆ leaf_set_at demo_tree (query_mrca demo_tree [0, 0] ["C", "D"]) :=
  c1_mrca_leafset_superset_of_anchor demo_tree [0, 0] ["C", "D"] (by decide)

/-- C2.  All-`no_hit` candidate sets resolve to the anchor with the
`no_hit` default flag and no warning; all-`no_valid_taxid` candidate sets
resolve to the anchor with the distinct `no_valid_taxid` default flag and
an explicit warning surfaced to the caller. -/
theorem c2_sentinel_defaults (t : PTree) (anchorP : List Nat) (m : Method)
    (q : String) (taxids : List String) :
    (taxids.all (fun x => x == "no_hit") = true →
      process_query t anchorP m q taxids = ⟨name_at_d t anchorP, Metric.flag no_hit_flag, []⟩)
    ∧ (taxids ≠ [] → taxids.all (fun x => x == "no_valid_taxid") = true →
      process_query t anchorP m q taxids =
        ⟨name_at_d t anchorP, Metric.flag no_valid_taxid_flag,
         ["Warning: Query " ++ q ++ " hit a synthetic construct or was malformed."]⟩)
    ∧ no_hit_flag ≠ no_valid_taxid_flag := by
  refine ⟨?_, ?_, by decide⟩
  · intro h
    have hvt : valid_taxids taxids = [] := valid_taxids_nil_of_all_no_hit h
    unfold process_query
    rw [hvt]
    simp [h]
  · intro hne h
    have hvt : valid_taxids taxids = [] := valid_taxids_nil_of_all_no_valid h
    have hnh : taxids.all (fun x => x == "no_hit") = false := by
      rcases taxids with _ | ⟨a, l⟩
      · exact absurd rfl hne
      · have ha : a = "no_valid_taxid" := by
          have := List.all_eq_true.mp h a (List.mem_cons_self a l)
          simpa using this
        subst ha
        simp [List.all_cons]
    unfold process_query
    rw [hvt]
    simp [hnh, h]

theorem c2_witness :
    process_query demo_tree [0, 0] Method.species_percentage "q" ["no_hit"]
      = ⟨name_at_d demo_tree [0, 0], Metric.flag no_hit_flag, []⟩
    ∧ process_query demo_tree [0, 0] Method.species_percentage "q" ["no_valid_taxid"]
      = ⟨name_at_d demo_tree [0, 0], Metric.flag no_valid_taxid_flag,
         ["Warning: Query " ++ "q" ++ " hit a synthetic construct or was malformed."]⟩ :=
  ⟨(c2_sentinel_defaults demo_tree [0, 0] Method.species_percentage "q" ["no_hit"]).1 (by decide),
   (c2_sentinel_defaults demo_tree [0, 0] Method.species_percentage "q"
     ["no_valid_taxid"]).2.1 (by decide) (by decide)⟩

/-! ## Sentinel filtering, unknown candidates, and the coverage metric -/

/-- Sentinels mixed among real taxon ids are simply filtered out: the
query is resolved exactly as if only the real ids had been given. -/
theorem process_query_ignores_sentinels (t : PTree) (anchorP : List Nat) (m : Method)
    (q : String) (taxids : List String) (h : valid_taxids taxids ≠ []) :
    process_query t anchorP m q taxids = process_query t anchorP m q (valid_taxids taxids) := by
  rw [process_query_lca_branch t anchorP m q taxids h,
    process_query_lca_branch t anchorP m q (valid_taxids taxids)
      (by rw [valid_taxids_idem]; exact h)]
  simp only [query_mrca, valid_taxids_idem]

/-- C9 (amended).  No sentinel/real-id trichotomy is enforced: a
candidate list mixing sentinels with real taxon ids is not rejected; the
sentinels are dropped and the query is resolved from the real ids
alone. -/
theorem c9_mixed_lists_filtered (t : PTree) (anchorP : List Nat) (m : Method)
    (q : String) (taxids : List String) (h : valid_taxids taxids ≠ []) :
    process_query t anchorP m q taxids = process_query t anchorP m q (valid_taxids taxids) :=
  process_query_ignores_sentinels t anchorP m q taxids h

/-- C9 counterexample: the mixed list `["B", "no_hit"]` (a real id plus a
sentinel) violates the claimed trichotomy, yet it is processed normally —
resolved to `N1` with a computed coverage ratio — instead of being
rejected. -/
theorem c9_counterexample :
    valid_taxids ["B", "no_hit"] ≠ []
    ∧ (["B", "no_hit"].all (fun x => x == "no_hit")) = false
    ∧ (["B", "no_hit"].all (fun x => x == "no_valid_taxid")) = false
    ∧ process_query demo_tree [0, 0] Method.species_percentage "q" ["B", "no_hit"]
        = process_query demo_tree [0, 0] Method.species_percentage "q" ["B"]
    ∧ (process_query demo_tree [0, 0] Method.species_percentage "q" ["B", "no_hit"]).mrca_name
        = "N1"
    ∧ (process_query demo_tree [0, 0] Method.species_percentage "q" ["B", "no_hit"]).metric
        = Metric.cov (1 / 2) := by
  refine ⟨by decide, by decide, by decide, ?_, by decide, ?_⟩
  · have h := process_query_ignores_sentinels demo_tree [0, 0] Method.species_percentage "q"
      ["B", "no_hit"] (by decide)
    rw [h, show valid_taxids ["B", "no_hit"] = ["B"] from by decide]
  · have h3 : (process_query demo_tree [0, 0] Method.species_percentage "q"
        ["B", "no_hit"]).metric
        = Metric.cov (species_percentage_metric demo_tree
            (query_mrca demo_tree [0, 0] ["B", "no_hit"])
            (observed_leaves demo_tree (valid_taxids ["B", "no_hit"]))) := rfl
    have h1 : (leaf_set_at demo_tree (query_mrca demo_tree [0, 0] ["B", "no_hit"])
        ∩ observed_leaves demo_tree (valid_taxids ["B", "no_hit"])).card = 1 := by decide
    have h2 : (leaf_set_at demo_tree (query_mrca demo_tree [0, 0] ["B", "no_hit"])).card = 2 := by
      decide
    rw [h3]
    simp only [species_percentage_metric, h1, h2]
    norm_num

theorem c9_witness :
    process_query demo_tree [0, 0] Method.node_activation "q2" ["C", "no_valid_taxid", "D"]
      = process_query demo_tree [0, 0] Method.node_activation "q2"
          (valid_taxids ["C", "no_valid_taxid", "D"]) :=
  c9_mixed_lists_filtered demo_tree [0, 0] Method.node_activation "q2"
    ["C", "no_valid_taxid", "D"] (by decide)

/-- C5 (amended).  A candidate taxon id with no entry in the taxon index
is reported through a warning and excluded from the LCA candidate pool;
when no candidate resolves, the query is *not* routed to the
`no_valid_taxid` default branch: the LCA computation is still invoked
with the anchor as its only listed node, which ete3 pairs with the node
the method is called on — the tree root — so the query resolves to the
root with a normally computed metric, not to the anchor and not with the
default flag. -/
theorem c5_unknown_taxid_handling (t : PTree) (anchorP : List Nat) (m : Method)
    (q tid : String) (taxids : List String) (h1 : tid ∈ valid_taxids taxids)
    (h2 : taxon_nodes t tid = []) :
    ("Warning: taxid " ++ tid ++ " not found in taxon_nodes")
        ∈ (process_query t anchorP m q taxids).warnings
    ∧ flat_taxa t anchorP (valid_taxids taxids)
        = flat_taxa t anchorP
            ((valid_taxids taxids).filter (fun u => !(taxon_nodes t u).isEmpty))
    ∧ ((valid_taxids taxids).all (fun u => (taxon_nodes t u).isEmpty) = true →
        flat_taxa t anchorP (valid_taxids taxids) = [anchorP]
        ∧ query_mrca t anchorP taxids = []
        ∧ process_query t anchorP Method.species_percentage q taxids
            = ⟨name_at_d t [],
               Metric.cov (species_percentage_metric t []
                 (observed_leaves t (valid_taxids taxids))),
               unknown_taxid_warnings t (valid_taxids taxids)⟩) := by
  have hvt : valid_taxids taxids ≠ [] := by
    intro hv
    rw [hv] at h1
    exact List.not_mem_nil tid h1
  refine ⟨?_, ?_, ?_⟩
  · rw [process_query_lca_branch t anchorP m q taxids hvt]
    refine List.mem_map.mpr ⟨tid, List.mem_filter.mpr ⟨h1, ?_⟩, rfl⟩
    rw [h2]
    rfl
  · unfold flat_taxa
    rw [List.filter_eq_self.mpr (fun a ha => (List.mem_filter.mp ha).2)]
  · intro hall
    have hfil : (valid_taxids taxids).filter (fun u => !(taxon_nodes t u).isEmpty) = [] := by
      rw [List.filter_eq_nil_iff]
      intro a ha
      have := List.all_eq_true.mp hall a ha
      simp only [this, Bool.not_true, Bool.false_eq_true, not_false_eq_true]
    have hflat : flat_taxa t anchorP (valid_taxids taxids) = [anchorP] := by
      unfold flat_taxa
      rw [hfil]
      rfl
    have hmrca : query_mrca t anchorP taxids = [] := by
      unfold query_mrca
      rw [hflat]
      have hgca : get_common_ancestor [anchorP] = common_path anchorP [] := rfl
      rw [hgca, common_path_nil_right]
    refine ⟨hflat, hmrca, ?_⟩
    rw [process_query_lca_branch t anchorP Method.species_percentage q taxids hvt, hmrca]

/-- C5 counterexample: for the query candidate list `["X"]` (a real but
unresolvable id), the code does not fall back to the `no_valid_taxid`
default handling; the LCA call on the anchor alone resolves to the tree
root, so the query resolves to `Root` — not even to the anchor `A` — and
the metric is a computed coverage ratio, not the default flag. -/
theorem c5_counterexample :
    (process_query demo_tree [0, 0] Method.species_percentage "q" ["X"]).mrca_name = "Root"
    ∧ name_at_d demo_tree [0, 0] = "A"
    ∧ ("Root" : String) ≠ "A"
    ∧ (process_query demo_tree [0, 0] Method.species_percentage "q" ["X"]).warnings
        = ["Warning: taxid X not found in taxon_nodes"]
    ∧ (process_query demo_tree [0, 0] Method.species_percentage "q" ["X"]).metric
        = Metric.cov 0
    ∧ (process_query demo_tree [0, 0] Method.species_percentage "q" ["X"]).metric
        ≠ Metric.flag no_valid_taxid_flag := by
  have h3 : (process_query demo_tree [0, 0] Method.species_percentage "q" ["X"]).metric
      = Metric.cov (species_percentage_metric demo_tree (query_mrca demo_tree [0, 0] ["X"])
          (observed_leaves demo_tree (valid_taxids ["X"]))) := rfl
  have hm : (process_query demo_tree [0, 0] Method.species_percentage "q" ["X"]).metric
      = Metric.cov 0 := by
    have h1 : (leaf_set_at demo_tree (query_mrca demo_tree [0, 0] ["X"])
        ∩ observed_leaves demo_tree (valid_taxids ["X"])).card = 0 := by decide
    have h2 : (leaf_set_at demo_tree (query_mrca demo_tree [0, 0] ["X"])).card = 4 := by decide
    rw [h3]
    simp only [species_percentage_metric, h1, h2]
    norm_num
  refine ⟨by decide, by decide, by decide, by decide, hm, ?_⟩
  rw [hm]
  simp

theorem c5_witness :
    ("Warning: taxid " ++ "X" ++ " not found in taxon_nodes")
        ∈ (process_query demo_tree [0, 0] Method.species_percentage "q" ["X"]).warnings
    ∧ query_mrca demo_tree [0, 0] ["X"] = [] :=
  ⟨(c5_unknown_taxid_handling demo_tree [0, 0] Method.species_percentage "q" "X" ["X"]
      (by decide) (by decide)).1,
   ((c5_unknown_taxid_handling demo_tree [0, 0] Method.species_percentage "q" "X" ["X"]
      (by decide) (by decide)).2.2 (by decide)).2.1⟩

/-- The coverage ratio is exactly 1 whenever the MRCA node is valid and
every leaf below it is observed. -/
theorem species_percentage_eq_one {t : PTree} {p : List Nat} {obs : Finset String}
    (hval : (subtree_at t p).isSome = true) (hsub : leaf_set_at t p ⊆ obs) :
    species_percentage_metric t p obs = 1 := by
  have hne : leaf_names_at t p ≠ [] := by
    cases hu : subtree_at t p with
    | none => rw [hu] at hval; cases hval
    | some u =>
      rw [leaf_names_at_of_some hu]
      exact leaf_names_ne_nil u
  have hpos : 0 < (leaf_set_at t p).card := by
    rcases List.exists_mem_of_ne_nil _ hne with ⟨x, hx⟩
    exact Finset.card_pos.mpr ⟨x, List.mem_toFinset.mpr hx⟩
  unfold species_percentage_metric
  rw [if_pos hpos, Finset.inter_eq_left.mpr hsub]
  exact div_self (Nat.cast_ne_zero.mpr (Nat.pos_iff_ne_zero.mp hpos))

/-- C3 (amended).  The coverage ratio always lies in `[0, 1]`; an empty
MRCA leaf set yields `0` rather than a division by zero; and when the
MRCA equals the anchor *and* every leaf under the anchor is observed, the
ratio is exactly `1`. -/
theorem c3_species_percentage_amended (t : PTree) (anchorP : List Nat)
    (taxids : List String) :
    (0 ≤ species_percentage_metric t (query_mrca t anchorP taxids)
        (observed_leaves t (valid_taxids taxids))
      ∧ species_percentage_metric t (query_mrca t anchorP taxids)
        (observed_leaves t (valid_taxids taxids)) ≤ 1)
    ∧ (leaf_set_at t (query_mrca t anchorP taxids) = ∅ →
        species_percentage_metric t (query_mrca t anchorP taxids)
          (observed_leaves t (valid_taxids taxids)) = 0)
    ∧ (query_mrca t anchorP taxids = anchorP →
        (subtree_at t anchorP).isSome = true →
        leaf_set_at t anchorP ⊆ observed_leaves t (valid_taxids taxids) →
        species_percentage_metric t (query_mrca t anchorP taxids)
          (observed_leaves t (valid_taxids taxids)) = 1) := by
  refine ⟨species_percentage_metric_bounds t _ _, ?_, ?_⟩
  · intro hempty
    unfold species_percentage_metric
    rw [hempty]
    simp
  · intro hmrca hval hsub
    rw [hmrca]
    exact species_percentage_eq_one hval hsub

/-- C3 counterexample: with the anchor at the internal node `N1` and the
single candidate `A`, the computed MRCA *is* the anchor, yet the coverage
ratio is `1/2`, not `1.0` — only one of `N1`'s two leaves is observed. -/
theorem c3_counterexample :
    query_mrca demo_tree [0] ["A"] = [0]
    ∧ (process_query demo_tree [0] Method.species_percentage "q1" ["A"]).metric
        = Metric.cov (1 / 2)
    ∧ Metric.cov (1 / 2) ≠ Metric.cov 1 := by
  refine ⟨by decide, ?_, by simp only [ne_eq, Metric.cov.injEq]; norm_num⟩
  have h3 : (process_query demo_tree [0] Method.species_percentage "q1" ["A"]).metric
      = Metric.cov (species_percentage_metric demo_tree (query_mrca demo_tree [0] ["A"])
          (observed_leaves demo_tree (valid_taxids ["A"]))) := rfl
  have h1 : (leaf_set_at demo_tree (query_mrca demo_tree [0] ["A"])
      ∩ observed_leaves demo_tree (valid_taxids ["A"])).card = 1 := by decide
  have h2 : (leaf_set_at demo_tree (query_mrca demo_tree [0] ["A"])).card = 2 := by decide
  rw [h3]
  simp only [species_percentage_metric, h1, h2]
  norm_num

theorem c3_witness :
    species_percentage_metric demo_tree (query_mrca demo_tree [0, 0] ["A"])
      (observed_leaves demo_tree (valid_taxids ["A"])) = 1 :=
  (c3_species_percentage_amended demo_tree [0, 0] ["A"]).2.2 (by decide) (by decide) (by decide)

/-- C4.  The activation vector has exactly one entry per node on the
anchor→MRCA path (the number of edges plus one, hence a single entry when
the MRCA is the anchor itself); every entry lies in `[0, 1]`; and a step
that introduces no new leaf contributes the entry `0` instead of being
skipped. -/
theorem c4_node_activation_shape (t : PTree) (anchorP : List Nat) (taxids : List String) :
    (node_activation_metric t (query_mrca t anchorP taxids) anchorP
        (observed_leaves t (valid_taxids taxids))).length
      = (anchorP.length - (query_mrca t anchorP taxids).length) + 1
    ∧ (∀ r ∈ node_activation_metric t (query_mrca t anchorP taxids) anchorP
        (observed_leaves t (valid_taxids taxids)), 0 ≤ r ∧ r ≤ 1)
    ∧ (∀ i, i < (path_to_mrca (query_mrca t anchorP taxids) anchorP).length →
        leaf_set_at t ((path_to_mrca (query_mrca t anchorP taxids) anchorP).getD i []) \
            seen_after t ((path_to_mrca (query_mrca t anchorP taxids) anchorP).take i) ∅ = ∅ →
        (node_activation_metric t (query_mrca t anchorP taxids) anchorP
          (observed_leaves t (valid_taxids taxids))).getD i 0 = 0) := by
  refine ⟨?_, ?_, ?_⟩
  · unfold node_activation_metric
    rw [activation_go_length]
    exact path_to_mrca_length (query_mrca_anc_anchor t anchorP taxids)
  · intro r hr
    exact activation_go_mem_bounds t _ _ _ r hr
  · intro i hi hstep
    unfold node_activation_metric
    rw [activation_go_getD t _ _ ∅ i hi, hstep]
    simp

theorem c4_witness :
    (node_activation_metric demo_tree2 (query_mrca demo_tree2 [0, 0] ["B"]) [0, 0]
        (observed_leaves demo_tree2 (valid_taxids ["B"]))).getD 1 0 = 0
    ∧ (node_activation_metric demo_tree2 (query_mrca demo_tree2 [0, 0] ["B"]) [0, 0]
        (observed_leaves demo_tree2 (valid_taxids ["B"]))).length
      = ([0, 0].length - (query_mrca demo_tree2 [0, 0] ["B"]).length) + 1 :=
  ⟨(c4_node_activation_shape demo_tree2 [0, 0] ["B"]).2.2 1 (by decide) (by decide),
   (c4_node_activation_shape demo_tree2 [0, 0] ["B"]).1⟩

/-! ## Internal-node naming: idempotence and frame property -/

/-- C8.  On a tree whose internal nodes are all named, the assignment
pass mutates nothing and returns the not-modified flag — on every run —
and consequently `find_mrca` never rewrites the tree file for such a
tree (the `modified` flag guarding `tree.write` stays `false`). -/
theorem c8_assign_idempotent_no_rewrite (t : PTree) (h : internal_annotated t = true) :
    assign_internal_node_names t = (t, false)
    ∧ assign_internal_node_names (assign_internal_node_names t).1 = (t, false)
    ∧ (∀ (queries : List (String × List String)) (anchor : String) (m : Method)
        (out : RunOutput), find_mrca t queries anchor m = some out →
        out.tree_rewritten = false ∧ out.final_tree = t) := by
  have h1 : assign_internal_node_names t = (t, false) := by
    unfold assign_internal_node_names
    rw [if_pos h]
  refine ⟨h1, by rw [h1]; exact h1, ?_⟩
  intro queries anchor m out hout
  unfold find_mrca at hout
  rw [h1] at hout
  cases hfa : find_anchor t anchor with
  | none =>
    rw [hfa] at hout
    cases hout
  | some anchorP =>
    rw [hfa] at hout
    injection hout with h2
    subst h2
    exact ⟨rfl, rfl⟩

theorem c8_witness :
    assign_internal_node_names demo_tree = (demo_tree, false)
    ∧ (⟨[], [], false, demo_tree⟩ : RunOutput).tree_rewritten = false
    ∧ (⟨[], [], false, demo_tree⟩ : RunOutput).final_tree = demo_tree :=
  ⟨(c8_assign_idempotent_no_rewrite demo_tree (by decide)).1,
   ((c8_assign_idempotent_no_rewrite demo_tree (by decide)).2.2 [] "A"
     Method.species_percentage ⟨[], [], false, demo_tree⟩ rfl).1,
   ((c8_assign_idempotent_no_rewrite demo_tree (by decide)).2.2 [] "A"
     Method.species_percentage ⟨[], [], false, demo_tree⟩ rfl).2⟩

theorem internal_name_ne_empty (k : Nat) : ("Internal_" ++ toString k) ≠ "" := by
  intro h
  have hl := congrArg String.length h
  rw [String.length_append] at hl
  simp at hl
  exact absurd hl.1 (by decide)

theorem isSome_of_name_at {t : PTree} {p : List Nat} {s : String}
    (h : name_at t p = some s) : (subtree_at t p).isSome = true := by
  unfold name_at at h
  cases hu : subtree_at t p with
  | none => rw [hu] at h; cases h
  | some u => rfl

theorem heightT_node (n : String) (cs : List PTree) :
    heightT (PTree.node n cs) = 1 + height_list cs := rfl

theorem height_list_cons (d : PTree) (cs : List PTree) :
    height_list (d :: cs) = max (heightT d) (height_list cs) := rfl

theorem heightT_le_of_mem : ∀ (cs : List PTree) (c : PTree), c ∈ cs →
    heightT c ≤ height_list cs
  | [], c, hc => absurd hc (List.not_mem_nil c)
  | d :: cs, c, hc => by
    rw [height_list_cons]
    rcases List.mem_cons.mp hc with h | h
    · rw [h]
      exact le_max_left _ _
    · exact le_trans (heightT_le_of_mem cs c h) (le_max_right _ _)

theorem length_lt_heightT : ∀ (p : List Nat) (t : PTree),
    (subtree_at t p).isSome = true → p.length < heightT t
  | [], PTree.node n cs, _ => by
    rw [heightT_node]
    simp
  | i :: p', PTree.node n cs, hval => by
    cases hc : cs.get? i with
    | none =>
      rw [subtree_at_cons_none n p' hc] at hval
      cases hval
    | some c =>
      rw [subtree_at_cons_some n p' hc] at hval
      have IH := length_lt_heightT p' c hval
      have hle := heightT_le_of_mem cs c (List.get?_mem hc)
      rw [heightT_node, List.length_cons]
      omega

/-- The depth-`|p|` pass gives the node at `p` a fresh `Internal_<k>`
name when its name was empty. -/
theorem rename_at_depth_renames : ∀ (p : List Nat) (t : PTree) (k : Nat),
    name_at t p = some "" →
    ∃ k2 : Nat, name_at (rename_at_depth t p.length k).1 p
      = some ("Internal_" ++ toString k2)
  | [], PTree.node n cs, k, hname => by
    have hn : n = "" := by
      rw [name_at_nil] at hname
      exact Option.some.inj hname
    refine ⟨k, ?_⟩
    subst hn
    rw [show (rename_at_depth (PTree.node "" cs) [].length k).1
        = PTree.node ("Internal_" ++ toString k) cs from rfl]
    exact name_at_nil _ cs
  | i :: p', PTree.node n cs, k, hname => by
    cases hc : cs.get? i with
    | none =>
      rw [name_at_cons_none n p' hc] at hname
      cases hname
    | some c =>
      rw [name_at_cons_some n p' hc] at hname
      have hren : (rename_at_depth (PTree.node n cs) (i :: p').length k).1
          = PTree.node n (rename_children cs p'.length k).1 := rfl
      rcases rename_children_get cs p'.length k i with ⟨h1, h2⟩ | ⟨c2, k2, hc2, hc2'⟩
      · rw [hc] at h2
        cases h2
      · rw [hc] at hc2
        injection hc2 with hc2
        subst hc2
        obtain ⟨k3, hk3⟩ := rename_at_depth_renames p' c k2 hname
        refine ⟨k3, ?_⟩
        rw [hren, name_at_cons_some n p' hc2']
        exact hk3

/-- A pass at a depth other than `|p|` leaves the name at `p` exactly as
it was. -/
theorem rename_at_depth_other_depth : ∀ (p : List Nat) (t : PTree) (d k : Nat),
    d ≠ p.length → name_at (rename_at_depth t d k).1 p = name_at t p
  | [], PTree.node n cs, 0, k, hd => absurd rfl hd
  | [], PTree.node n cs, d + 1, k, _ => by
    rw [show (rename_at_depth (PTree.node n cs) (d + 1) k).1
        = PTree.node n (rename_children cs d k).1 from rfl]
    rw [name_at_nil, name_at_nil]
  | i :: p', PTree.node n cs, 0, k, _ => by
    have hsub : subtree_at (rename_at_depth (PTree.node n cs) 0 k).1 (i :: p')
        = subtree_at (PTree.node n cs) (i :: p') := by
      by_cases hn : n = "" <;>
        simp [rename_at_depth, hn, subtree_at, PTree.children]
    unfold name_at
    rw [hsub]
  | i :: p', PTree.node n cs, d + 1, k, hd => by
    have hd' : d ≠ p'.length := by
      simp only [List.length_cons] at hd
      omega
    have hren : (rename_at_depth (PTree.node n cs) (d + 1) k).1
        = PTree.node n (rename_children cs d k).1 := rfl
    rcases rename_children_get cs d k i with ⟨h1, h2⟩ | ⟨c, k2, hc, hc'⟩
    · rw [hren, name_at_cons_none n p' h1, name_at_cons_none n p' h2]
    · rw [hren, name_at_cons_some n p' hc', name_at_cons_some n p' hc]
      exact rename_at_depth_other_depth p' c d k2 hd'

/-- Running the per-depth passes for depths `d, d+1, ...` eventually
renames an empty-named node at any depth in `[d, d+fuel)`. -/
theorem rename_levels_renames : ∀ (fuel : Nat) (t : PTree) (d k : Nat) (p : List Nat),
    name_at t p = some "" → d ≤ p.length → p.length < d + fuel →
    ∃ k2 : Nat, name_at (rename_levels t d k fuel) p = some ("Internal_" ++ toString k2)
  | 0, _, d, _, p, _, hlo, hhi => absurd hlo (by omega)
  | fuel + 1, t, d, k, p, hname, hlo, hhi => by
    have hstep : rename_levels t d k (fuel + 1)
        = rename_levels (rename_at_depth t d k).1 (d + 1) (rename_at_depth t d k).2 fuel :=
      rfl
    by_cases hd : d = p.length
    · subst hd
      obtain ⟨k2, hA⟩ := rename_at_depth_renames p t k hname
      have hne : name_at (rename_at_depth t p.length k).1 p ≠ some "" := by
        rw [hA]
        intro hx
        exact internal_name_ne_empty k2 (Option.some.inj hx)
      have hkeep := (rename_levels_preserves fuel (rename_at_depth t p.length k).1
        (p.length + 1) (rename_at_depth t p.length k).2 p).2 hne
      refine ⟨k2, ?_⟩
      rw [hstep, hkeep, hA]
    · have hB := rename_at_depth_other_depth p t d k hd
      have hname1 : name_at (rename_at_depth t d k).1 p = some "" := by
        rw [hB, hname]
      obtain ⟨k2, hk2⟩ := rename_levels_renames fuel (rename_at_depth t d k).1 (d + 1)
        (rename_at_depth t d k).2 p hname1 (by omega) (by omega)
      exact ⟨k2, by rw [hstep, hk2]⟩

/-- C10.  The naming pass never changes the name of a node that already
carries a nonempty name (leaves and pre-named internal nodes are left
exactly as they were); a name can change only where it was empty; the
tree shape is preserved; and when the pass actually runs (some internal
node is unnamed), every empty-named node receives a synthesized
`Internal_<counter>` name. -/
theorem c10_assign_preserves_existing_names (t : PTree) (p : List Nat) :
    (name_at t p ≠ some "" → name_at (assign_internal_node_names t).1 p = name_at t p)
    ∧ (name_at (assign_internal_node_names t).1 p ≠ name_at t p → name_at t p = some "")
    ∧ (subtree_at (assign_internal_node_names t).1 p).isSome = (subtree_at t p).isSome
    ∧ (internal_annotated t = false → name_at t p = some "" →
        ∃ k : Nat, name_at (assign_internal_node_names t).1 p
          = some ("Internal_" ++ toString k)) := by
  by_cases h : internal_annotated t
  · have h1 : (assign_internal_node_names t).1 = t := by
      unfold assign_internal_node_names
      rw [if_pos h]
    rw [h1]
    exact ⟨fun _ => rfl, fun hne => absurd rfl hne, rfl,
      fun hfalse _ => absurd h (by rw [hfalse]; exact Bool.false_ne_true)⟩
  · have h1 : (assign_internal_node_names t).1 = rename_levels t 0 1 (heightT t) := by
      unfold assign_internal_node_names
      rw [if_neg h]
    rw [h1]
    have hp := rename_levels_preserves (heightT t) t 0 1 p
    refine ⟨hp.2, ?_, hp.1, ?_⟩
    · intro hne
      by_contra hn
      exact hne (hp.2 hn)
    · intro _ hname
      have hlen := length_lt_heightT p t (isSome_of_name_at hname)
      exact rename_levels_renames (heightT t) t 0 1 p hname (Nat.zero_le _) (by omega)

theorem c10_witness :
    name_at (assign_internal_node_names demo_tree3).1 [0] = name_at demo_tree3 [0]
    ∧ ∃ k : Nat, name_at (assign_internal_node_names demo_tree3).1 []
        = some ("Internal_" ++ toString k) :=
  ⟨(c10_assign_preserves_existing_names demo_tree3 [0]).1 (by decide),
   (c10_assign_preserves_existing_names demo_tree3 []).2.2.2 (by decide) (by decide)⟩

/-! ## Collapse filter: legacy routing -/

theorem process_old_mrca_is_old (q m : String) (mp : List (String × String × String)) :
    is_old_outcome (process_old_mrca q m mp) = true := by
  unfold process_old_mrca
  split <;> rfl

theorem process_old_mrca_ne_newOut (q2 m2 : String) (mp : List (String × String × String))
    (q tn ti : String) (b : Bool) :
    process_old_mrca q2 m2 mp ≠ LineOutcome.newOut q tn ti b := by
  unfold process_old_mrca
  split <;> simp

theorem process_new_mrca_newOut_label {q2 key : String} {topo : Bool}
    {mp : List (String × String × String)} {q tn ti : String} {b : Bool}
    (h : process_new_mrca q2 key topo mp = LineOutcome.newOut q tn ti b) :
    mapping_lookup mp key = some (tn, ti) := by
  unfold process_new_mrca at h
  split at h
  · exact LineOutcome.noConfusion h
  · rename_i tn2 ti2 heq
    injection h with e1 e2 e3 e4
    rw [heq, e2, e3]

/-- C6 counterexample: in the spec's own scenario — mapping containing
`N1` but not `Root`, lifting two levels from `A` reaches `Root` — the
result is routed to the *new*-MRCA path, where the absent key is reported
as not-found-in-mapping; it is not classified legacy. -/
theorem c6_counterexample :
    lift_up demo_tree 2 [0, 0] = some []
    ∧ name_at_d demo_tree [] = "Root"
    ∧ mapping_lookup demo_mapping "Root" = none
    ∧ process_line_parts demo_tree demo_mapping false 2 ["q", "A", "x"]
        = LineOutcome.newNotInMapping "q" "Root"
    ∧ is_old_outcome (process_line_parts demo_tree demo_mapping false 2 ["q", "A", "x"])
        = false := by
  decide

/-- C6 (amended).  A raw MRCA whose lifted node's key is missing from the
collapse mapping is routed to the new-MRCA path and reported as
not-found-in-mapping (written to neither output file); the legacy path is
taken only when lifting stops early or the lifted label is the
"too coarse" sentinel. -/
theorem c6_absent_key_routed_to_new (t : PTree) (mapping : List (String × String × String))
    (topo : Bool) (lv : Nat) (qseqid mrca_name rest : String) (mrcaP liftedP : List Nat)
    (h1 : original_node t mrca_name = some mrcaP)
    (h2 : lift_up t lv mrcaP = some liftedP)
    (h3 : mapping_lookup mapping (name_at_d t liftedP) = none) :
    process_line_parts t mapping topo lv [qseqid, mrca_name, rest]
      = LineOutcome.newNotInMapping qseqid (name_at_d t liftedP) := by
  simp only [process_line_parts, h1, h2, h3, process_new_mrca]

theorem c6_witness :
    process_line_parts demo_tree demo_mapping false 2 ["q", "A", "x"]
      = LineOutcome.newNotInMapping "q" (name_at_d demo_tree []) :=
  c6_absent_key_routed_to_new demo_tree demo_mapping false 2 "q" "A" "x" [0, 0] []
    (by decide) (by decide) (by decide)

/-- C7.  A lifted node whose canonical label in the collapse mapping is
the "too coarse" sentinel `Eukaryota` is always routed to the legacy
(old-MRCA) path, for every `levels_up`; dually, a new/resolved outcome
never carries the label `Eukaryota`. -/
theorem c7_eukaryota_always_legacy (t : PTree) (mapping : List (String × String × String))
    (topo : Bool) (lv : Nat) (parts : List String) :
    (∀ qseqid mrca_name rest mrcaP liftedP tid,
        parts = [qseqid, mrca_name, rest] →
        original_node t mrca_name = some mrcaP →
        lift_up t lv mrcaP = some liftedP →
        mapping_lookup mapping (name_at_d t liftedP) = some ("Eukaryota", tid) →
        is_old_outcome (process_line_parts t mapping topo lv parts) = true)
    ∧ (∀ q tn ti b, process_line_parts t mapping topo lv parts
        = LineOutcome.newOut q tn ti b → tn ≠ "Eukaryota") := by
  constructor
  · intro qseqid mrca_name rest mrcaP liftedP tid hparts h1 h2 h3
    subst hparts
    simp only [process_line_parts, h1, h2, h3, beq_self_eq_true, if_true]
    exact process_old_mrca_is_old qseqid mrca_name mapping
  · intro q tn ti b h
    rcases parts with _ | ⟨a, _ | ⟨b2, _ | ⟨c3, _ | ⟨d4, r4⟩⟩⟩⟩
    · simp only [process_line_parts] at h
      exact LineOutcome.noConfusion h
    · simp only [process_line_parts] at h
      exact LineOutcome.noConfusion h
    · simp only [process_line_parts] at h
      exact LineOutcome.noConfusion h
    · simp only [process_line_parts] at h
      cases ho : original_node t b2 with
      | none =>
        simp only [ho] at h
        exact LineOutcome.noConfusion h
      | some mrcaP =>
        simp only [ho] at h
        cases hl : lift_up t lv mrcaP with
        | none =>
          simp only [hl] at h
          exact absurd h (process_old_mrca_ne_newOut _ _ _ _ _ _ _)
        | some liftedP =>
          simp only [hl] at h
          cases hm : mapping_lookup mapping (name_at_d t liftedP) with
          | none =>
            simp only [hm] at h
            have hlab := process_new_mrca_newOut_label h
            rw [hm] at hlab
            exact Option.noConfusion hlab
          | some pr =>
            obtain ⟨taxon_name, snd⟩ := pr
            simp only [hm] at h
            by_cases hif : (taxon_name == "Eukaryota") = true
            · rw [if_pos hif] at h
              exact absurd h (process_old_mrca_ne_newOut _ _ _ _ _ _ _)
            · rw [if_neg hif] at h
              have hlab := process_new_mrca_newOut_label h
              rw [hm] at hlab
              have hp := Option.some.inj hlab
              have htn : taxon_name = tn := by
                have := congrArg Prod.fst hp
                simpa using this
              intro hc
              rw [hc] at htn
              rw [htn] at hif
              exact hif (by simp)
    · simp only [process_line_parts] at h
      exact LineOutcome.noConfusion h

theorem c7_witness :
    is_old_outcome (process_line_parts demo_tree demo_mapping_euk false 2 ["q", "A", "x"])
      = true :=
  (c7_eukaryota_always_legacy demo_tree demo_mapping_euk false 2 ["q", "A", "x"]).1
    "q" "A" "x" [0, 0] [] "1" rfl (by decide) (by decide) (by decide)
